import Mathlib

/-!
Shallow embedding of the request-admission and result-caching layer:
the LRU/TTL cache (`lru-cache.utils.ts`), the single-flight dedup queue
(`AsyncQueue`) and the dual token-bucket rate limiter (`RateLimiter`).

JavaScript `Map`s are modelled as association lists in insertion order
(the iteration order of a JS `Map`); `Map.set` on an existing key updates
the value in place, on a fresh key it appends at the end; `Map.delete`
removes the (unique) entry with that key, modelled as removing the first
match.  Timestamps (`Date.now()`) are passed explicitly as `Nat`
milliseconds; fractional token counts are rationals.
-/

set_option maxHeartbeats 1000000

namespace Spec2Proof

/-! ### JavaScript `Map` primitives -/

def jsGet {β : Type} (k : String) (l : List (String × β)) : Option β :=
  (l.find? (fun p => p.1 == k)).map (fun p => p.2)

def jsSet {β : Type} (k : String) (v : β) (l : List (String × β)) : List (String × β) :=
  if l.any (fun p => p.1 == k) then
    l.map (fun p => if p.1 == k then (k, v) else p)
  else
    l ++ [(k, v)]

def jsDelete {β : Type} (k : String) (l : List (String × β)) : List (String × β) :=
  l.eraseP (fun p => p.1 == k)

/-! ### LRU cache (`src/utils/lru-cache.utils.ts`) -/

structure CacheEntry (V : Type) where
  value : V
  timestamp : Nat
  lastAccessed : Nat
deriving DecidableEq

structure LRUCache (V : Type) where
  entries : List (String × CacheEntry V)
  capacity : Nat
  ttl : Nat
  hits : Nat
  misses : Nat
  evictions : Nat
deriving DecidableEq

structure CacheStats where
  hits : Nat
  misses : Nat
  currentSize : Nat
  totalRequests : Nat
  hitRate : ℚ
  evictions : Nat
deriving DecidableEq

namespace LRUCache

/-- The constructor: `capacity` entries, `ttlSeconds * 1000` ms time to live,
all statistics counters zero, empty store. -/
def mkCache (V : Type) (capacity ttlSeconds : Nat) : LRUCache V :=
  { entries := [], capacity := capacity, ttl := ttlSeconds * 1000,
    hits := 0, misses := 0, evictions := 0 }

/-- `isExpired`: `Date.now() - entry.timestamp > this.ttl`.  Truncated `Nat`
subtraction agrees with JS number subtraction here: a negative JS age is
not `> ttl`, and the truncated age `0` is not `> ttl` either. -/
def isExpired {V : Type} (c : LRUCache V) (e : CacheEntry V) (now : Nat) : Bool :=
  c.ttl < now - e.timestamp

/-- `get(key)`: miss on absence, miss (and delete) on an expired entry,
otherwise touch `lastAccessed`, move the entry to the most-recently-used
end, count a hit and return the value. -/
def get {V : Type} (c : LRUCache V) (k : String) (now : Nat) :
    Option V × LRUCache V :=
  match jsGet k c.entries with
  | none => (none, { c with misses := c.misses + 1 })
  | some e =>
    if c.isExpired e now then
      (none, { c with entries := jsDelete k c.entries, misses := c.misses + 1 })
    else
      (some e.value,
       { c with
          entries := jsSet k { e with lastAccessed := now } (jsDelete k c.entries),
          hits := c.hits + 1 })

/-- `set(key, value)`: delete an existing entry for the key; otherwise, at
capacity, delete the first (least-recently-used) key and count an eviction —
but only when `firstKey` is truthy, i.e. present and not the empty string
(`if (firstKey)` in the source).  Finally insert the fresh entry at the
most-recently-used end. -/
def set {V : Type} (c : LRUCache V) (k : String) (v : V) (now : Nat) :
    LRUCache V :=
  if c.entries.any (fun p => p.1 == k) then
    { c with entries := jsSet k ⟨v, now, now⟩ (jsDelete k c.entries) }
  else if c.capacity ≤ c.entries.length then
    match c.entries.head? with
    | none => { c with entries := jsSet k ⟨v, now, now⟩ c.entries }
    | some p =>
      if p.1 = "" then
        { c with entries := jsSet k ⟨v, now, now⟩ c.entries }
      else
        { c with
            entries := jsSet k ⟨v, now, now⟩ (jsDelete p.1 c.entries),
            evictions := c.evictions + 1 }
  else
    { c with entries := jsSet k ⟨v, now, now⟩ c.entries }

/-- `has(key)`: same expiry test as `get`; deletes an expired entry; touches
neither the statistics nor the recency order. -/
def has {V : Type} (c : LRUCache V) (k : String) (now : Nat) :
    Bool × LRUCache V :=
  match jsGet k c.entries with
  | none => (false, c)
  | some e =>
    if c.isExpired e now then
      (false, { c with entries := jsDelete k c.entries })
    else
      (true, c)

/-- `clear()`: empties the store only; the statistics counters survive. -/
def clear {V : Type} (c : LRUCache V) : LRUCache V :=
  { c with entries := [] }

/-- `Math.round`: round half toward positive infinity. -/
def jsRound (x : ℚ) : ℤ := ⌊x + 1 / 2⌋

/-- `getStats()`: derived `totalRequests` and a hit rate in percent rounded
to two decimals (`Math.round(hitRate * 100) / 100`). -/
def getStats {V : Type} (c : LRUCache V) : CacheStats :=
  let total := c.hits + c.misses
  let rawRate : ℚ := if 0 < total then ((c.hits : ℚ) / (total : ℚ)) * 100 else 0
  { hits := c.hits, misses := c.misses, currentSize := c.entries.length,
    totalRequests := total,
    hitRate := (jsRound (rawRate * 100) : ℚ) / 100,
    evictions := c.evictions }

/-- `cleanupStaleEntries()` (the background sweep): collect every key whose
age exceeds the TTL and delete it.  With the unique keys a JS `Map`
guarantees this is a filter on the entry list. -/
def cleanupStaleEntries {V : Type} (c : LRUCache V) (now : Nat) : LRUCache V :=
  { c with entries := c.entries.filter (fun p => !(c.ttl < now - p.2.timestamp)) }

end LRUCache

/-- A foreground cache operation, for statements over arbitrary operation
sequences. -/
inductive CacheOp (V : Type) where
  | get (k : String) (now : Nat)
  | set (k : String) (v : V) (now : Nat)

def applyOp {V : Type} (c : LRUCache V) : CacheOp V → LRUCache V
  | CacheOp.get k now => (LRUCache.get c k now).2
  | CacheOp.set k v now => LRUCache.set c k v now

def runOps (V : Type) (capacity ttlSeconds : Nat) (ops : List (CacheOp V)) :
    LRUCache V :=
  ops.foldl applyOp (LRUCache.mkCache V capacity ttlSeconds)

/-- `true` unless the operation is a `set` with the empty string as key. -/
def opSetKeyOk {V : Type} : CacheOp V → Bool
  | CacheOp.set k _ _ => k != ""
  | CacheOp.get _ _ => true

/-- Invariant maintained by the cache operations (for non-empty keys and
positive capacity): fixed capacity, bounded size, no empty-string key. -/
def cacheInv {V : Type} (cap : Nat) (c : LRUCache V) : Prop :=
  c.capacity = cap ∧ c.entries.length ≤ cap ∧ ∀ p ∈ c.entries, p.1 ≠ ""

/-! ### AsyncQueue (single-flight dedup queue)

`enqueue`/`processTask`/`processNext` run synchronously on the JS event
loop; only the `await task()` inside `processTask` suspends.  We model an
execution as a sequence of atomic events: an `enq` event is one synchronous
`enqueue` call, and a `complete` event is the resumption of `processTask`
after the awaited `task()` settled (the `resolve`/waiter loop/`finally`
block, including the `processNext` call, all run synchronously).

The state mirrors the class fields `queue`, `processing` and
`activeCount`.  `running` records the suspended `processTask` frames as
(key, initiating caller) pairs; `invocations` instruments how often a
task for each key was physically started; `settled` records each
promise outcome of each caller. -/

inductive Outcome where
  | ok (v : Nat)
  | err (e : Nat)
deriving DecidableEq

structure QueueState where
  queue : List (String × List Nat)
  processing : List String
  activeCount : Nat
  running : List (String × Nat)
  invocations : String → Nat
  settled : Nat → Option Outcome

namespace AsyncQueue

def initState : QueueState :=
  { queue := [], processing := [], activeCount := 0, running := [],
    invocations := fun _ => 0, settled := fun _ => none }

/-- `Set.add`. -/
def procAdd (k : String) (ps : List String) : List String :=
  if k ∈ ps then ps else k :: ps

/-- `Set.delete`. -/
def procDelete (k : String) (ps : List String) : List String :=
  ps.filter (fun x => x != k)

def bumpInv (k : String) (f : String → Nat) : String → Nat :=
  fun x => if x = k then f x + 1 else f x

def settleOne (c : Nat) (r : Outcome) (f : Nat → Option Outcome) :
    Nat → Option Outcome :=
  fun x => if x = c then some r else f x

def settleMany (cs : List Nat) (r : Outcome) (f : Nat → Option Outcome) :
    Nat → Option Outcome :=
  cs.foldl (fun g c => settleOne c r g) f

/-- `enqueue(id, task)`: if the key is marked processing, push a waiter.
Otherwise mark the key processing; below the concurrency limit start the
task at once, else push the caller onto the queue of the key (note the key
stays marked processing in that branch, exactly as in the source). -/
def enqueue (L : Nat) (s : QueueState) (c : Nat) (k : String) : QueueState :=
  if k ∈ s.processing then
    { s with queue := jsSet k (((jsGet k s.queue).getD []) ++ [c]) s.queue }
  else
    let s1 := { s with processing := procAdd k s.processing }
    if s1.activeCount < L then
      { s1 with
          activeCount := s1.activeCount + 1,
          invocations := bumpInv k s1.invocations,
          running := s1.running ++ [(k, c)] }
    else
      { s1 with queue := jsSet k (((jsGet k s1.queue).getD []) ++ [c]) s1.queue }

/-- The scan inside `processNext`: the first queue entry whose key is not
marked processing and whose task list is non-empty, split as
(key, shifted task, remaining tasks). -/
def findEligible (ps : List String) :
    List (String × List Nat) → Option (String × Nat × List Nat)
  | [] => none
  | (k, ws) :: rest =>
    if k ∉ ps then
      match ws with
      | [] => findEligible ps rest
      | c :: tl => some (k, c, tl)
    else findEligible ps rest

/-- `processNext()`: bail out at the concurrency limit; otherwise admit the
first eligible queued task, marking its key processing, bumping the
active count, and deleting the queue entry when it became empty. -/
def processNext (L : Nat) (s : QueueState) : QueueState :=
  if L ≤ s.activeCount then s
  else
    match findEligible s.processing s.queue with
    | none => s
    | some (k, c, rest) =>
      { s with
          processing := procAdd k s.processing,
          activeCount := s.activeCount + 1,
          queue := if rest.isEmpty then jsDelete k s.queue else jsSet k rest s.queue,
          invocations := bumpInv k s.invocations,
          running := s.running ++ [(k, c)] }

/-- Resumption of `processTask` for key `k` once its awaited task settled
with `r`: resolve (or reject) the initiating caller, give every queued
waiter for the key the identical outcome and drop the queue entry of the key
(only when there are waiters), then the `finally` block: unmark the key,
decrement the active count and call `processNext`. -/
def completeTask (L : Nat) (s : QueueState) (k : String) (r : Outcome) :
    QueueState :=
  match s.running.find? (fun p => p.1 == k) with
  | none => s
  | some p =>
    let waiters := (jsGet k s.queue).getD []
    let settled2 := settleMany waiters r (settleOne p.2 r s.settled)
    let queue2 := if waiters.isEmpty then s.queue else jsDelete k s.queue
    let s2 : QueueState :=
      { queue := queue2,
        processing := procDelete k s.processing,
        activeCount := s.activeCount - 1,
        running := s.running.eraseP (fun q => q.1 == k),
        invocations := s.invocations,
        settled := settled2 }
    processNext L s2

/-- `clear()`: empties the waiter queue only; `processing` and
`activeCount` are untouched and no pending promise is settled. -/
def clearQ (s : QueueState) : QueueState :=
  { s with queue := [] }

inductive QEvent where
  | enq (c : Nat) (k : String)
  | complete (k : String) (r : Outcome)
deriving DecidableEq

def step (L : Nat) (s : QueueState) : QEvent → QueueState
  | QEvent.enq c k => enqueue L s c k
  | QEvent.complete k r => completeTask L s k r

def runFrom (L : Nat) (s : QueueState) (evs : List QEvent) : QueueState :=
  evs.foldl (step L) s

def run (L : Nat) (evs : List QEvent) : QueueState :=
  runFrom L initState evs

/-- The queue state reached from `initState` after callers `0, …, N-1`
(`1 ≤ N`) have called `enqueue` for key `k` while the concurrency limit is
not saturated: the task of caller 0 runs, callers `1, …, N-1` wait. -/
def enqChainState (k : String) (N : Nat) : QueueState :=
  { queue := if N ≤ 1 then [] else [(k, List.range' 1 (N - 1))],
    processing := [k], activeCount := 1, running := [(k, 0)],
    invocations := bumpInv k (fun _ => 0),
    settled := fun _ => none }

/-- The promise of caller `c` is untouched by the queue state: not settled, not
the initiator of a running task, not a queued waiter. -/
def untouched (c : Nat) (s : QueueState) : Prop :=
  s.settled c = none ∧ (∀ p ∈ s.running, p.2 ≠ c) ∧ (∀ p ∈ s.queue, c ∉ p.2)

end AsyncQueue

/-! ### RateLimiter (dual token bucket, `part_001`) -/

namespace RateLimiter

/-- `this.maxTokens = 10`. -/
def maxTokens : ℚ := 10

/-- `this.refillRate = 10 / (60 * 1000)` tokens per millisecond. -/
def refillRate : ℚ := 10 / 60000

/-- `this.burstCapacity = 5`. -/
def burstCapacity : Nat := 5

/-- `this.burstWindow = 10 * 1000` milliseconds. -/
def burstWindow : Nat := 10000

structure TokenBucket where
  tokens : ℚ
  lastRefill : Nat
  burstTokens : Nat
  lastBurstRefill : Nat
deriving DecidableEq

/-- The bucket `getBucket` creates for a first-seen client. -/
def freshBucket (now : Nat) : TokenBucket :=
  { tokens := maxTokens, lastRefill := now,
    burstTokens := burstCapacity, lastBurstRefill := now }

/-- `refillTokens`: continuous refill, capped at `maxTokens`. -/
def refillTokens (b : TokenBucket) (now : Nat) : TokenBucket :=
  let tokensToAdd : ℚ := ((now : ℚ) - (b.lastRefill : ℚ)) * refillRate
  { b with tokens := min maxTokens (b.tokens + tokensToAdd), lastRefill := now }

/-- `refillBurstTokens`: hard reset of the burst pool once the burst window
has elapsed. -/
def refillBurstTokens (b : TokenBucket) (now : Nat) : TokenBucket :=
  if (burstWindow : ℤ) ≤ (now : ℤ) - (b.lastBurstRefill : ℤ) then
    { b with burstTokens := burstCapacity, lastBurstRefill := now }
  else b

/-- The admission decision of `allowRequest` on a single bucket: refill
both pools; a burst admission consumes one burst token and one steady
token (floor-clamped at 0); otherwise a steady admission needs a full
steady token; else reject. -/
def allowRequestB (b : TokenBucket) (now : Nat) : Bool × TokenBucket :=
  let b1 := refillBurstTokens (refillTokens b now) now
  if 0 < b1.burstTokens then
    (true, { b1 with burstTokens := b1.burstTokens - 1, tokens := max 0 (b1.tokens - 1) })
  else if 1 ≤ b1.tokens then
    (true, { b1 with tokens := b1.tokens - 1 })
  else
    (false, b1)

/-- `getBucket`: look the client up, lazily creating a full bucket. -/
def getBucket (buckets : List (String × TokenBucket)) (clientId : String)
    (now : Nat) : TokenBucket × List (String × TokenBucket) :=
  match jsGet clientId buckets with
  | some b => (b, buckets)
  | none => (freshBucket now, jsSet clientId (freshBucket now) buckets)

/-- `allowRequest(clientId)` at the bucket-map level; the source mutates
the bucket object in place, modelled by writing the updated bucket back. -/
def allowRequest (buckets : List (String × TokenBucket)) (clientId : String)
    (now : Nat) : Bool × List (String × TokenBucket) :=
  let bb := getBucket buckets clientId now
  let ob := allowRequestB bb.1 now
  (ob.1, jsSet clientId ob.2 bb.2)

/-- The status triple `getStatus` reports for a bucket: refill both pools
exactly as `allowRequest` does, then `Math.floor(bucket.tokens)`,
`bucket.burstTokens`, and
`resetIn = Math.ceil((this.maxTokens - bucket.tokens) / this.refillRate)`. -/
def getStatusB (b : TokenBucket) (now : Nat) : ℤ × Nat × ℤ :=
  let b1 := refillBurstTokens (refillTokens b now) now
  (⌊b1.tokens⌋, b1.burstTokens, ⌈(maxTokens - b1.tokens) / refillRate⌉)

/-- `getStatus(req)` at the bucket-map level (the refill mutates the
stored bucket in place). -/
def getStatus (buckets : List (String × TokenBucket)) (clientId : String)
    (now : Nat) : (ℤ × Nat × ℤ) × List (String × TokenBucket) :=
  let bb := getBucket buckets clientId now
  let b1 := refillBurstTokens (refillTokens bb.1 now) now
  (getStatusB bb.1 now, jsSet clientId b1 bb.2)

/-- `n` consecutive `allowRequest` calls for one client at one instant,
returning the admission results in order. -/
def limiterRun (buckets : List (String × TokenBucket)) (clientId : String)
    (now : Nat) : Nat → List Bool × List (String × TokenBucket)
  | 0 => ([], buckets)
  | n + 1 =>
    ((allowRequest buckets clientId now).1 ::
       (limiterRun (allowRequest buckets clientId now).2 clientId now n).1,
     (limiterRun (allowRequest buckets clientId now).2 clientId now n).2)

/-- `n` consecutive admission decisions on a single bucket at one instant. -/
def bucketRun (b : TokenBucket) (now : Nat) : Nat → List Bool × TokenBucket
  | 0 => ([], b)
  | n + 1 =>
    ((allowRequestB b now).1 :: (bucketRun (allowRequestB b now).2 now n).1,
     (bucketRun (allowRequestB b now).2 now n).2)

/-- Pure token arithmetic of one admission step when no time has elapsed
(both refills are the identity then). -/
def pureStep : ℚ × Nat → Bool × ℚ × Nat
  | (q, bt) =>
    if 0 < bt then (true, max 0 (q - 1), bt - 1)
    else if 1 ≤ q then (true, q - 1, bt)
    else (false, q, bt)

def pureRun : ℚ × Nat → Nat → List Bool × ℚ × Nat
  | s, 0 => ([], s)
  | s, n + 1 =>
    ((pureStep s).1 :: (pureRun (pureStep s).2 n).1, (pureRun (pureStep s).2 n).2)

/-- Modelled from the spec (§4.3/§4.1 of the status query): the steady pool
observed `d` milliseconds later, `min(maxTokens, tokens + d · refillRate)`;
used to state what "time until one more steady token is available" means. -/
def steadyTokensAfter (q : ℚ) (d : Nat) : ℚ :=
  min maxTokens (q + (d : ℚ) * refillRate)

end RateLimiter

open AsyncQueue RateLimiter

/-! ### Helper lemmas -/

theorem jsRound_nonneg {x : ℚ} (hx : 0 ≤ x) : 0 ≤ LRUCache.jsRound x := by
  unfold LRUCache.jsRound
  rw [Int.floor_nonneg]
  linarith

theorem jsRound_le {x : ℚ} (hx : x ≤ 10000) : LRUCache.jsRound x ≤ 10000 := by
  unfold LRUCache.jsRound
  have h1 : ⌊x + 1 / 2⌋ ≤ ⌊(10000 : ℚ) + 1 / 2⌋ := Int.floor_le_floor (by linarith)
  have h2 : ⌊(10000 : ℚ) + 1 / 2⌋ = 10000 := by norm_num
  omega

/-- One admission step when no time has elapsed since the bucket was last
refilled: both refill functions are the identity and `allowRequest` is the
pure token arithmetic. -/
theorem allowRequestB_calm (q : ℚ) (bt : Nat) (t : Nat) (hq : q ≤ maxTokens) :
    allowRequestB ⟨q, t, bt, t⟩ t =
      ((pureStep (q, bt)).1,
       ⟨(pureStep (q, bt)).2.1, t, (pureStep (q, bt)).2.2, t⟩) := by
  unfold allowRequestB refillTokens refillBurstTokens pureStep
  simp only [sub_self, zero_mul, add_zero, min_eq_right hq]
  norm_num [burstWindow]
  by_cases h1 : 0 < bt
  · simp [h1]
  · by_cases h2 : 1 ≤ q <;> simp [h1, h2]

theorem pureStep_tokens_le {q : ℚ} {bt : Nat} (hq : q ≤ maxTokens) :
    (pureStep (q, bt)).2.1 ≤ maxTokens := by
  unfold pureStep
  dsimp only
  split
  · exact max_le (by norm_num [maxTokens]) (by linarith)
  · split
    · dsimp only
      linarith
    · exact hq

theorem bucketRun_calm (t : Nat) :
    ∀ (n : Nat) (q : ℚ) (bt : Nat), q ≤ maxTokens →
      bucketRun ⟨q, t, bt, t⟩ t n =
        ((pureRun (q, bt) n).1,
         ⟨(pureRun (q, bt) n).2.1, t, (pureRun (q, bt) n).2.2, t⟩) := by
  intro n
  induction n with
  | zero => intro q bt hq; rfl
  | succ m ih =>
    intro q bt hq
    show bucketRun ⟨q, t, bt, t⟩ t (m + 1) = _
    unfold bucketRun pureRun
    rw [allowRequestB_calm q bt t hq]
    rw [ih (pureStep (q, bt)).2.1 (pureStep (q, bt)).2.2 (pureStep_tokens_le hq)]

theorem jsGet_singleton {β : Type} (k : String) (b : β) :
    jsGet k [(k, b)] = some b := by
  simp [jsGet]

theorem jsSet_singleton {β : Type} (k : String) (b b' : β) :
    jsSet k b' [(k, b)] = [(k, b')] := by
  simp [jsSet]

theorem limiterRun_single (cid : String) (t : Nat) :
    ∀ (n : Nat) (b : TokenBucket),
      limiterRun [(cid, b)] cid t n =
        ((bucketRun b t n).1, [(cid, (bucketRun b t n).2)]) := by
  intro n
  induction n with
  | zero => intro b; rfl
  | succ m ih =>
    intro b
    show limiterRun [(cid, b)] cid t (m + 1) = _
    unfold limiterRun bucketRun allowRequest getBucket
    rw [jsGet_singleton]
    simp only
    rw [jsSet_singleton, ih (allowRequestB b t).2]

theorem allowRequest_empty (cid : String) (t : Nat) :
    allowRequest [] cid t =
      ((allowRequestB (freshBucket t) t).1,
       [(cid, (allowRequestB (freshBucket t) t).2)]) := by
  unfold allowRequest getBucket
  have hg : jsGet cid ([] : List (String × TokenBucket)) = none := rfl
  rw [hg]
  have h1 : jsSet cid (freshBucket t) ([] : List (String × TokenBucket)) =
      [(cid, freshBucket t)] := by simp [jsSet]
  simp only
  rw [h1, jsSet_singleton]

theorem limiterRun_empty (cid : String) (t n : Nat) :
    limiterRun [] cid t (n + 1) =
      ((bucketRun (freshBucket t) t (n + 1)).1,
       [(cid, (bucketRun (freshBucket t) t (n + 1)).2)]) := by
  show ((allowRequest [] cid t).1 ::
          (limiterRun (allowRequest [] cid t).2 cid t n).1,
        (limiterRun (allowRequest [] cid t).2 cid t n).2) = _
  rw [allowRequest_empty]
  rw [limiterRun_single cid t n (allowRequestB (freshBucket t) t).2]
  rfl

theorem settleMany_apply (cs : List Nat) (r : Outcome) (f : Nat → Option Outcome)
    (x : Nat) : settleMany cs r f x = if x ∈ cs then some r else f x := by
  induction cs generalizing f with
  | nil => simp [settleMany]
  | cons c tl ih =>
    show settleMany tl r (settleOne c r f) x = _
    rw [ih]
    by_cases hx : x ∈ tl
    · simp [hx]
    · by_cases hc : x = c <;> simp [settleOne, hx, hc]

theorem queueInv_processNext (L : Nat) (s : QueueState)
    (h1 : s.activeCount = s.running.length) (h2 : s.activeCount ≤ L) :
    (processNext L s).activeCount = (processNext L s).running.length ∧
    (processNext L s).activeCount ≤ L := by
  unfold processNext
  by_cases hL : L ≤ s.activeCount
  · simp only [hL, if_true]
    exact ⟨h1, h2⟩
  · simp only [hL, if_false]
    cases hfe : findEligible s.processing s.queue with
    | none => exact ⟨h1, h2⟩
    | some t =>
      obtain ⟨k, c, rest⟩ := t
      simp only
      constructor
      · simp [h1]
      · omega

theorem queueInv_step (L : Nat) (s : QueueState) (ev : QEvent)
    (h1 : s.activeCount = s.running.length) (h2 : s.activeCount ≤ L) :
    (step L s ev).activeCount = (step L s ev).running.length ∧
    (step L s ev).activeCount ≤ L := by
  cases ev with
  | enq c k =>
    simp only [step]
    unfold enqueue
    by_cases hp : k ∈ s.processing
    · simp only [hp, if_true]
      exact ⟨h1, h2⟩
    · simp only [hp, if_false]
      by_cases ha : s.activeCount < L
      · simp only [ha, if_true]
        constructor
        · simp [h1]
        · omega
      · simp only [ha, if_false]
        exact ⟨h1, h2⟩
  | complete k r =>
    simp only [step]
    unfold completeTask
    cases hf : s.running.find? (fun p => p.1 == k) with
    | none =>
      simp only [hf]
      exact ⟨h1, h2⟩
    | some p =>
      simp only [hf]
      have hmem : p ∈ s.running := List.mem_of_find?_eq_some hf
      have hpk := List.find?_some hf
      have hlen : (s.running.eraseP (fun q => q.1 == k)).length =
          s.running.length - 1 := List.length_eraseP_of_mem hmem hpk
      have hpos : 0 < s.running.length := List.length_pos.mpr (List.ne_nil_of_mem hmem)
      exact queueInv_processNext L _ (by simp [hlen]; omega) (by simp; omega)

theorem enq_chain (L : Nat) (hL : 1 ≤ L) (k : String) :
    ∀ N, 1 ≤ N →
      (List.range N).foldl (fun s i => step L s (QEvent.enq i k)) initState =
        enqChainState k N := by
  intro N
  induction N with
  | zero => intro h; exact absurd h (by omega)
  | succ m ih =>
    intro _
    by_cases hm : m = 0
    · subst hm
      have h1 : List.range 1 = [0] := rfl
      rw [h1]
      show step L initState (QEvent.enq 0 k) = enqChainState k 1
      simp only [step]
      unfold enqueue initState enqChainState procAdd
      simp [hL]
      omega
    · have hm1 : 1 ≤ m := by omega
      rw [List.range_succ, List.foldl_append, ih hm1]
      show step L (enqChainState k m) (QEvent.enq m k) = enqChainState k (m + 1)
      simp only [step]
      unfold enqueue enqChainState
      dsimp only
      rw [if_pos (List.mem_singleton.mpr rfl)]
      by_cases h2 : m = 1
      · subst h2
        simp [jsGet, jsSet, List.range']
      · have h3 : 2 ≤ m := by omega
        have hq : ¬ (m ≤ 1) := by omega
        have hq2 : ¬ (m + 1 ≤ 1) := by omega
        rw [if_neg hq, if_neg hq2]
        have hr : List.range' 1 (m - 1) ++ [m] = List.range' 1 m := by
          have hm2 : m = (m - 1) + 1 := by omega
          conv_rhs => rw [hm2, List.range'_concat]
          congr 2
          omega
        rw [jsGet_singleton]
        dsimp only [Option.getD]
        rw [jsSet_singleton, hr]
        simp [Nat.add_sub_cancel]

theorem mem_jsSet {β : Type} (k : String) (v : β) (l : List (String × β))
    (p : String × β) (hp : p ∈ jsSet k v l) : p = (k, v) ∨ p ∈ l := by
  unfold jsSet at hp
  split at hp
  · obtain ⟨q, hq, hmap⟩ := List.mem_map.mp hp
    by_cases h : (q.1 == k) = true
    · rw [if_pos h] at hmap
      exact Or.inl hmap.symm
    · rw [if_neg h] at hmap
      exact Or.inr (hmap ▸ hq)
  · rcases List.mem_append.mp hp with h | h
    · exact Or.inr h
    · exact Or.inl (List.mem_singleton.mp h)

theorem mem_jsDelete {β : Type} (k : String) (l : List (String × β))
    (p : String × β) (hp : p ∈ jsDelete k l) : p ∈ l :=
  (List.eraseP_sublist l).subset hp

theorem mem_of_mem_jsGet_getD {β : Type} (k : String) (l : List (String × List β))
    (x : β) (hx : x ∈ (jsGet k l).getD []) : ∃ p ∈ l, x ∈ p.2 := by
  unfold jsGet at hx
  cases hf : l.find? (fun p => p.1 == k) with
  | none =>
    rw [hf] at hx
    exact absurd hx (List.not_mem_nil x)
  | some p =>
    rw [hf] at hx
    exact ⟨p, List.mem_of_find?_eq_some hf, hx⟩

theorem findEligible_mem (ps : List String) :
    ∀ (q : List (String × List Nat)) (k : String) (c : Nat) (rest : List Nat),
      findEligible ps q = some (k, c, rest) → (k, c :: rest) ∈ q := by
  intro q
  induction q with
  | nil => intro k c rest h; exact Option.noConfusion h
  | cons hd tl ih =>
    intro k c rest h
    obtain ⟨hk, ws⟩ := hd
    unfold findEligible at h
    split at h
    · cases ws with
      | nil => exact List.mem_cons_of_mem _ (ih k c rest h)
      | cons c0 tl0 =>
        simp only [Option.some.injEq, Prod.mk.injEq] at h
        obtain ⟨h1, h2, h3⟩ := h
        subst h1; subst h2; subst h3
        exact List.mem_cons_self _ _
    · exact List.mem_cons_of_mem _ (ih k c rest h)

theorem untouched_processNext (L : Nat) (s : QueueState) (c : Nat)
    (h : untouched c s) : untouched c (processNext L s) := by
  obtain ⟨hs, hr, hq⟩ := h
  unfold processNext
  by_cases hL : L ≤ s.activeCount
  · rw [if_pos hL]; exact ⟨hs, hr, hq⟩
  · rw [if_neg hL]
    cases hfe : findEligible s.processing s.queue with
    | none => exact ⟨hs, hr, hq⟩
    | some t =>
      obtain ⟨k, c0, rest⟩ := t
      have hmem : (k, c0 :: rest) ∈ s.queue := findEligible_mem s.processing s.queue k c0 rest hfe
      have hnc : c ∉ c0 :: rest := hq _ hmem
      refine ⟨hs, ?_, ?_⟩
      · intro p hp
        rcases List.mem_append.mp hp with h1 | h1
        · exact hr p h1
        · rw [List.mem_singleton.mp h1]
          intro hc
          exact hnc (hc ▸ List.mem_cons_self c0 rest)
      · intro p hp
        dsimp only at hp
        split at hp
        · exact hq p (mem_jsDelete k s.queue p hp)
        · rcases mem_jsSet k rest s.queue p hp with h1 | h1
          · rw [h1]
            intro hc
            exact hnc (List.mem_cons_of_mem c0 hc)
          · exact hq p h1

theorem untouched_step (L : Nat) (s : QueueState) (c : Nat) (ev : QEvent)
    (h : untouched c s) (hev : ∀ k, ev ≠ QEvent.enq c k) :
    untouched c (step L s ev) := by
  obtain ⟨hs, hr, hq⟩ := h
  cases ev with
  | enq c' k =>
    have hne : c' ≠ c := by
      intro hcc
      exact (hev k) (by rw [hcc])
    simp only [step]
    unfold enqueue
    have hqset : ∀ p, p ∈ jsSet k (((jsGet k s.queue).getD []) ++ [c']) s.queue →
        c ∉ p.2 := by
      intro p hp
      rcases mem_jsSet _ _ _ p hp with h1 | h1
      · rw [h1]
        intro hc
        rcases List.mem_append.mp hc with h2 | h2
        · obtain ⟨p0, hp0, hcp0⟩ := mem_of_mem_jsGet_getD k s.queue c h2
          exact hq p0 hp0 hcp0
        · exact hne (List.mem_singleton.mp h2).symm
      · exact hq p h1
    by_cases hp : k ∈ s.processing
    · rw [if_pos hp]
      exact ⟨hs, hr, hqset⟩
    · rw [if_neg hp]
      dsimp only
      by_cases ha : s.activeCount < L
      · rw [if_pos ha]
        refine ⟨hs, ?_, hq⟩
        intro p hpm
        rcases List.mem_append.mp hpm with h1 | h1
        · exact hr p h1
        · rw [List.mem_singleton.mp h1]
          exact hne
      · rw [if_neg ha]
        exact ⟨hs, hr, hqset⟩
  | complete k r =>
    simp only [step]
    unfold completeTask
    cases hf : s.running.find? (fun p => p.1 == k) with
    | none => exact ⟨hs, hr, hq⟩
    | some p =>
      dsimp only
      apply untouched_processNext
      have hpc : p.2 ≠ c := hr p (List.mem_of_find?_eq_some hf)
      refine ⟨?_, ?_, ?_⟩
      · dsimp only
        rw [settleMany_apply]
        have hcw : c ∉ (jsGet k s.queue).getD [] := by
          intro hc
          obtain ⟨p0, hp0, hcp0⟩ := mem_of_mem_jsGet_getD k s.queue c hc
          exact hq p0 hp0 hcp0
        rw [if_neg hcw]
        unfold settleOne
        rw [if_neg (by intro hcc; exact hpc hcc.symm)]
        exact hs
      · intro q hqm
        dsimp only at hqm
        exact hr q ((List.eraseP_sublist s.running).subset hqm)
      · intro q hqm
        dsimp only at hqm
        split at hqm
        · exact hq q hqm
        · exact hq q (mem_jsDelete k s.queue q hqm)

theorem untouched_runFrom (L : Nat) (c : Nat) :
    ∀ (evs : List QEvent) (s : QueueState), untouched c s →
      (∀ k, QEvent.enq c k ∉ evs) → untouched c (runFrom L s evs) := by
  intro evs
  induction evs with
  | nil => intro s h _; exact h
  | cons ev tl ih =>
    intro s h hev
    apply ih (step L s ev)
    · apply untouched_step L s c ev h
      intro k hk
      exact (hev k) (hk ▸ List.mem_cons_self ev tl)
    · intro k hk
      exact (hev k) (List.mem_cons_of_mem ev hk)

theorem find?_key_append {β : Type} (k : String) (l₁ l₂ : List (String × β))
    (h : ∀ p ∈ l₁, p.1 ≠ k) :
    (l₁ ++ l₂).find? (fun p => p.1 == k) = l₂.find? (fun p => p.1 == k) := by
  induction l₁ with
  | nil => rfl
  | cons hd tl ih =>
    rw [List.cons_append, List.find?_cons_of_neg]
    · exact ih (fun p hp => h p (List.mem_cons_of_mem hd hp))
    · intro hb
      exact h hd (List.mem_cons_self hd tl) (eq_of_beq hb)

theorem jsGet_append_key {β : Type} (k : String) (l : List (String × β)) (e : β)
    (h : ∀ p ∈ l, p.1 ≠ k) : jsGet k (l ++ [(k, e)]) = some e := by
  unfold jsGet
  rw [find?_key_append k l _ h]
  simp [List.find?]

theorem jsGet_none {β : Type} (k : String) (l : List (String × β))
    (h : ∀ p ∈ l, p.1 ≠ k) : jsGet k l = none := by
  unfold jsGet
  rw [List.find?_eq_none.mpr]
  · rfl
  · intro x hx hb
    exact h x hx (eq_of_beq hb)

theorem jsSet_absent {β : Type} (k : String) (v : β) (l : List (String × β))
    (h : ∀ p ∈ l, p.1 ≠ k) : jsSet k v l = l ++ [(k, v)] := by
  unfold jsSet
  rw [if_neg]
  intro hany
  obtain ⟨x, hx, hb⟩ := List.any_eq_true.mp hany
  exact h x hx (eq_of_beq hb)

theorem jsDelete_keys {β : Type} (k : String) :
    ∀ (l : List (String × β)), (l.map Prod.fst).Nodup →
      ∀ p ∈ jsDelete k l, p.1 ≠ k := by
  intro l
  induction l with
  | nil =>
    intro _ p hp
    exact absurd hp (List.not_mem_nil p)
  | cons hd tl ih =>
    intro hnd p hp
    rw [List.map_cons, List.nodup_cons] at hnd
    unfold jsDelete at hp
    by_cases hb : (hd.1 == k) = true
    · rw [List.eraseP_cons_of_pos (p := fun q : String × β => q.1 == k) hb] at hp
      have hk : hd.1 = k := eq_of_beq hb
      intro hpk
      exact hnd.1 (by rw [hk, ← hpk]; exact List.mem_map_of_mem Prod.fst hp)
    · rw [List.eraseP_cons_of_neg (p := fun q : String × β => q.1 == k) hb] at hp
      rcases List.mem_cons.mp hp with h1 | h1
      · rw [h1]
        intro hpk
        exact hb (by rw [hpk]; exact beq_self_eq_true k)
      · exact ih hnd.2 p h1

theorem set_ttl {V : Type} (c : LRUCache V) (k : String) (v : V) (now : Nat) :
    (LRUCache.set c k v now).ttl = c.ttl := by
  unfold LRUCache.set
  split
  · rfl
  · split
    · split
      · rfl
      · split <;> rfl
    · rfl

theorem set_entries_split {V : Type} (c : LRUCache V) (k : String) (v : V)
    (now : Nat) (hnd : (c.entries.map Prod.fst).Nodup) :
    ∃ pre, (LRUCache.set c k v now).entries = pre ++ [(k, ⟨v, now, now⟩)] ∧
      ∀ p ∈ pre, p.1 ≠ k := by
  unfold LRUCache.set
  by_cases hany : c.entries.any (fun p => p.1 == k) = true
  · rw [if_pos hany]
    refine ⟨jsDelete k c.entries, ?_, jsDelete_keys k c.entries hnd⟩
    dsimp only
    rw [jsSet_absent k _ _ (jsDelete_keys k c.entries hnd)]
  · have habs : ∀ p ∈ c.entries, p.1 ≠ k := by
      intro p hp hpk
      exact hany (List.any_eq_true.mpr ⟨p, hp, by rw [hpk]; exact beq_self_eq_true k⟩)
    rw [if_neg hany]
    by_cases hcap : c.capacity ≤ c.entries.length
    · rw [if_pos hcap]
      cases hh : c.entries.head? with
      | none =>
        refine ⟨c.entries, ?_, habs⟩
        dsimp only
        rw [jsSet_absent k _ _ habs]
      | some p0 =>
        dsimp only
        by_cases hpe : p0.1 = ""
        · rw [if_pos hpe]
          refine ⟨c.entries, ?_, habs⟩
          dsimp only
          rw [jsSet_absent k _ _ habs]
        · rw [if_neg hpe]
          refine ⟨jsDelete p0.1 c.entries, ?_, ?_⟩
          · dsimp only
            rw [jsSet_absent k _ _
              (fun p hp => habs p (mem_jsDelete p0.1 c.entries p hp))]
          · exact fun p hp => habs p (mem_jsDelete p0.1 c.entries p hp)
    · rw [if_neg hcap]
      refine ⟨c.entries, ?_, habs⟩
      dsimp only
      rw [jsSet_absent k _ _ habs]

theorem jsSet_length {β : Type} (k : String) (v : β) (l : List (String × β)) :
    (jsSet k v l).length =
      if l.any (fun p => p.1 == k) then l.length else l.length + 1 := by
  unfold jsSet
  split <;> simp

theorem jsDelete_length_le {β : Type} (k : String) (l : List (String × β)) :
    (jsDelete k l).length ≤ l.length :=
  (List.eraseP_sublist l).length_le

theorem jsDelete_length_found {β : Type} (k : String) (l : List (String × β))
    (p : String × β) (hp : p ∈ l) (hk : p.1 = k) :
    (jsDelete k l).length = l.length - 1 :=
  List.length_eraseP_of_mem hp (by rw [hk]; exact beq_self_eq_true k)

theorem jsSet_keys_ne {β : Type} (k : String) (v : β) (l : List (String × β))
    (hl : ∀ p ∈ l, p.1 ≠ "") (hk : k ≠ "") :
    ∀ p ∈ jsSet k v l, p.1 ≠ "" := by
  intro p hp
  rcases mem_jsSet k v l p hp with h | h
  · rw [h]
    exact hk
  · exact hl p h

theorem cacheInv_get {V : Type} (cap : Nat) (c : LRUCache V) (k : String)
    (now : Nat) (h : cacheInv cap c) : cacheInv cap (LRUCache.get c k now).2 := by
  obtain ⟨hcap, hlen, hk⟩ := h
  unfold LRUCache.get
  cases hg : jsGet k c.entries with
  | none => exact ⟨hcap, hlen, hk⟩
  | some e =>
    have hfind : ∃ p0 ∈ c.entries, p0.1 = k := by
      unfold jsGet at hg
      cases hf : c.entries.find? (fun p => p.1 == k) with
      | none =>
        rw [hf] at hg
        exact absurd hg (by simp)
      | some p0 =>
        have hb := List.find?_some hf
        exact ⟨p0, List.mem_of_find?_eq_some hf, eq_of_beq hb⟩
    obtain ⟨p0, hp0, hp0k⟩ := hfind
    dsimp only
    have hkne : k ≠ "" := hp0k ▸ hk p0 hp0
    have hdel : (jsDelete k c.entries).length = c.entries.length - 1 :=
      jsDelete_length_found k c.entries p0 hp0 hp0k
    have hpos : 1 ≤ c.entries.length :=
      List.length_pos.mpr (List.ne_nil_of_mem hp0)
    by_cases hexp : c.isExpired e now = true
    · rw [if_pos hexp]
      exact ⟨hcap, le_trans (jsDelete_length_le k c.entries) hlen,
        fun p hp => hk p (mem_jsDelete k c.entries p hp)⟩
    · rw [if_neg hexp]
      refine ⟨hcap, ?_, ?_⟩
      · dsimp only
        rw [jsSet_length]
        split
        · omega
        · rw [hdel]
          omega
      · dsimp only
        exact jsSet_keys_ne k _ _
          (fun p hp => hk p (mem_jsDelete k c.entries p hp)) hkne

theorem cacheInv_set {V : Type} (cap : Nat) (c : LRUCache V) (k : String)
    (v : V) (now : Nat) (hcap1 : 1 ≤ cap) (hkne : k ≠ "")
    (h : cacheInv cap c) : cacheInv cap (LRUCache.set c k v now) := by
  obtain ⟨hcap, hlen, hk⟩ := h
  unfold LRUCache.set
  by_cases hany : c.entries.any (fun p => p.1 == k) = true
  · rw [if_pos hany]
    obtain ⟨p0, hp0, hp0b⟩ := List.any_eq_true.mp hany
    have hp0k : p0.1 = k := eq_of_beq hp0b
    have hdel := jsDelete_length_found k c.entries p0 hp0 hp0k
    have hpos : 1 ≤ c.entries.length :=
      List.length_pos.mpr (List.ne_nil_of_mem hp0)
    refine ⟨hcap, ?_, ?_⟩
    · dsimp only
      rw [jsSet_length]
      split
      · omega
      · rw [hdel]
        omega
    · dsimp only
      exact jsSet_keys_ne k _ _
        (fun p hp => hk p (mem_jsDelete k c.entries p hp)) hkne
  · have habs : ∀ p ∈ c.entries, p.1 ≠ k := by
      intro p hp hpk
      exact hany (List.any_eq_true.mpr ⟨p, hp, by rw [hpk]; exact beq_self_eq_true k⟩)
    rw [if_neg hany]
    by_cases hfull : c.capacity ≤ c.entries.length
    · rw [if_pos hfull]
      have hlencap : c.entries.length = cap := by omega
      cases hent : c.entries with
      | nil =>
        rw [hent] at hlencap
        simp at hlencap
        omega
      | cons hd tl =>
        have hhd : hd.1 ≠ "" := hk hd (hent ▸ List.mem_cons_self hd tl)
        dsimp only [List.head?]
        rw [if_neg hhd]
        have hdel : jsDelete hd.1 (hd :: tl) = tl := by
          unfold jsDelete
          rw [List.eraseP_cons_of_pos (p := fun q : String × CacheEntry V => q.1 == hd.1) (beq_self_eq_true hd.1)]
        rw [hdel]
        have htl : ∀ p ∈ tl, p.1 ≠ k := by
          intro p hp
          exact habs p (hent ▸ List.mem_cons_of_mem hd hp)
        refine ⟨hcap, ?_, ?_⟩
        · dsimp only
          rw [jsSet_absent k _ _ htl]
          rw [hent, List.length_cons] at hlencap
          simp
          omega
        · dsimp only
          refine jsSet_keys_ne k _ _ ?_ hkne
          intro p hp
          exact hk p (hent ▸ List.mem_cons_of_mem hd hp)
    · rw [if_neg hfull]
      refine ⟨hcap, ?_, ?_⟩
      · dsimp only
        rw [jsSet_absent k _ _ habs]
        simp
        omega
      · dsimp only
        exact jsSet_keys_ne k _ _ hk hkne

theorem set_full_evicts {V : Type} (cap : Nat) (c : LRUCache V) (k : String)
    (v : V) (now : Nat) (hinv : cacheInv cap c) (hcap1 : 1 ≤ cap) (hkne : k ≠ "")
    (habs : k ∉ c.entries.map Prod.fst) (hfull : cap ≤ c.entries.length) :
    (LRUCache.set c k v now).entries =
      c.entries.tail ++ [(k, ⟨v, now, now⟩)] ∧
    (LRUCache.set c k v now).evictions = c.evictions + 1 ∧
    (LRUCache.set c k v now).entries.length = cap := by
  obtain ⟨hcap, hlen, hk⟩ := hinv
  have habs2 : ∀ p ∈ c.entries, p.1 ≠ k := by
    intro p hp hpk
    exact habs (hpk ▸ List.mem_map_of_mem Prod.fst hp)
  have hany : ¬ (c.entries.any (fun p => p.1 == k) = true) := by
    intro h
    obtain ⟨x, hx, hb⟩ := List.any_eq_true.mp h
    exact habs2 x hx (eq_of_beq hb)
  have hlencap : c.entries.length = cap := by omega
  unfold LRUCache.set
  rw [if_neg hany, if_pos (show c.capacity ≤ c.entries.length by omega)]
  cases hent : c.entries with
  | nil =>
    rw [hent] at hlencap
    simp at hlencap
    omega
  | cons hd tl =>
    have hhd : hd.1 ≠ "" := hk hd (hent ▸ List.mem_cons_self hd tl)
    dsimp only [List.head?]
    rw [if_neg hhd]
    have hdel : jsDelete hd.1 (hd :: tl) = tl := by
      unfold jsDelete
      rw [List.eraseP_cons_of_pos (p := fun q : String × CacheEntry V => q.1 == hd.1) (beq_self_eq_true hd.1)]
    rw [hdel]
    have htl : ∀ p ∈ tl, p.1 ≠ k := by
      intro p hp
      exact habs2 p (hent ▸ List.mem_cons_of_mem hd hp)
    refine ⟨?_, rfl, ?_⟩
    · dsimp only
      rw [jsSet_absent k _ _ htl]
      rfl
    · dsimp only
      rw [jsSet_absent k _ _ htl]
      rw [hent, List.length_cons] at hlencap
      simp
      omega

theorem cacheInv_runOps {V : Type} (cap ttlS : Nat) (hcap1 : 1 ≤ cap)
    (ops : List (CacheOp V)) (hops : ∀ op ∈ ops, opSetKeyOk op = true) :
    cacheInv cap (runOps V cap ttlS ops) := by
  unfold runOps
  suffices h : ∀ (l : List (CacheOp V)) (c : LRUCache V), cacheInv cap c →
      (∀ op ∈ l, opSetKeyOk op = true) → cacheInv cap (l.foldl applyOp c) by
    refine h ops (LRUCache.mkCache V cap ttlS) ⟨rfl, ?_, ?_⟩ hops
    · simp [LRUCache.mkCache]
    · intro p hp
      exact absurd hp (List.not_mem_nil p)
  intro l
  induction l with
  | nil => intro c hc _; exact hc
  | cons op tl ih =>
    intro c hc hl
    rw [List.foldl_cons]
    apply ih
    · cases op with
      | get k now => exact cacheInv_get cap c k now hc
      | set k v now =>
        have hkne : k ≠ "" := by
          have hx := hl _ (List.mem_cons_self _ tl)
          simpa [opSetKeyOk] using hx
        exact cacheInv_set cap c k v now hcap1 hkne hc
    · intro op hop
      exact hl op (List.mem_cons_of_mem _ hop)

/-! ### Claim theorems -/

/-- C7: for every cache state, `getStats` reports
`totalRequests = hits + misses`, a hit rate between 0 and 100 (percent)
that is 0 when there were no requests, and `clear` leaves the hits,
misses and evictions counters unchanged. -/
theorem C7_stats_invariant {V : Type} (c : LRUCache V) :
    (LRUCache.getStats c).totalRequests =
      (LRUCache.getStats c).hits + (LRUCache.getStats c).misses ∧
    0 ≤ (LRUCache.getStats c).hitRate ∧
    (LRUCache.getStats c).hitRate ≤ 100 ∧
    ((LRUCache.getStats c).totalRequests = 0 → (LRUCache.getStats c).hitRate = 0) ∧
    (LRUCache.clear c).hits = c.hits ∧
    (LRUCache.clear c).misses = c.misses ∧
    (LRUCache.clear c).evictions = c.evictions := by
  unfold LRUCache.getStats LRUCache.clear
  simp only
  refine ⟨trivial, ?_, ?_, ?_, trivial, trivial, trivial⟩
  · have : 0 ≤ (if 0 < c.hits + c.misses then
        ((c.hits : ℚ) / ((c.hits + c.misses : Nat) : ℚ)) * 100 else 0) * 100 := by
      split
      · positivity
      · norm_num
    have hr := jsRound_nonneg this
    positivity
  · set rawRate : ℚ := if 0 < c.hits + c.misses then
        ((c.hits : ℚ) / ((c.hits + c.misses : Nat) : ℚ)) * 100 else 0 with hdef
    have hb : rawRate * 100 ≤ 10000 := by
      rw [hdef]
      split
      · rename_i ht
        have htQ : (0 : ℚ) < ((c.hits + c.misses : Nat) : ℚ) := by
          exact_mod_cast ht
        have hle : (c.hits : ℚ) / ((c.hits + c.misses : Nat) : ℚ) ≤ 1 := by
          rw [div_le_one htQ]
          exact_mod_cast Nat.le_add_right c.hits c.misses
        nlinarith
      · norm_num
    have hr := jsRound_le hb
    have hrQ : ((LRUCache.jsRound (rawRate * 100)) : ℚ) ≤ 10000 := by
      exact_mod_cast hr
    linarith
  · intro h0
    have hz : c.hits + c.misses = 0 := h0
    rw [hz]
    norm_num [LRUCache.jsRound]

/-- C7 witness: the invariant at a concrete cache with no requests. -/
theorem C7_witness :
    (LRUCache.getStats (LRUCache.mkCache Nat 2 1)).hitRate = 0 :=
  (C7_stats_invariant (LRUCache.mkCache Nat 2 1)).2.2.2.1 rfl

/-- C8: `has` admits a key exactly when `get` would return a value (the
same expiry test), deletes exactly the expired entry it finds, and leaves
the hit/miss/eviction counters and the recency order of the remaining
entries unchanged (the surviving entry list is a sublist of the original,
entries and `lastAccessed` fields untouched). -/
theorem C8_has_frame {V : Type} (c : LRUCache V) (k : String) (now : Nat) :
    (LRUCache.has c k now).1 = ((LRUCache.get c k now).1).isSome ∧
    (LRUCache.has c k now).2.hits = c.hits ∧
    (LRUCache.has c k now).2.misses = c.misses ∧
    (LRUCache.has c k now).2.evictions = c.evictions ∧
    List.Sublist (LRUCache.has c k now).2.entries c.entries ∧
    (LRUCache.has c k now).2.entries =
      (match jsGet k c.entries with
       | none => c.entries
       | some e => if c.isExpired e now then jsDelete k c.entries else c.entries) := by
  unfold LRUCache.has LRUCache.get
  cases hj : jsGet k c.entries with
  | none => simp
  | some e =>
    by_cases hx : c.isExpired e now <;>
      simp [hx, jsDelete, List.eraseP_sublist, List.Sublist.refl]

/-- C3 counterexample: with TTL 5000 ms, a key set at `t0 = 0` is still
returned by `get` and reported by `has` at the observation time
`t = t0 + TTL = 5000` (the source expires strictly after the TTL:
`now - timestamp > ttl`), contradicting the claim that the key is absent
at every `t ≥ t0 + TTL`. -/
theorem C3_counterexample :
    (LRUCache.get (LRUCache.set (LRUCache.mkCache Nat 10 5) "a" 1 0) "a" 5000).1 = some 1 ∧
    (LRUCache.has (LRUCache.set (LRUCache.mkCache Nat 10 5) "a" 1 0) "a" 5000).1 = true ∧
    (LRUCache.mkCache Nat 10 5).ttl = 5000 ∧ 0 + 5000 ≤ 5000 := by
  decide

/-- C4 counterexample: capacity 1, the sequence `set "" 1; set "x" 2`.
Because `firstKey` (the empty string) is falsy, `set` skips the eviction:
afterwards the cache holds 2 entries with capacity 1 and no eviction was
counted, contradicting `size ≤ capacity`. -/
theorem C4_counterexample :
    (runOps Nat 1 1 [CacheOp.set "" 1 0, CacheOp.set "x" 2 0]).capacity = 1 ∧
    (runOps Nat 1 1 [CacheOp.set "" 1 0, CacheOp.set "x" 2 0]).entries.length = 2 ∧
    (runOps Nat 1 1 [CacheOp.set "" 1 0, CacheOp.set "x" 2 0]).evictions = 0 := by
  decide

/-- C2 counterexample: a fresh client firing 15 requests at one instant is
admitted exactly 10 times before the first rejection, not
`maxTokens + burstCapacity = 15`: every burst admission also debits a
steady token. -/
theorem C2_counterexample :
    ((limiterRun [] "client" 0 15).1.takeWhile (fun b => b)).length = 10 ∧
    10 ≠ 10 + 5 := by
  refine ⟨?_, by omega⟩
  rw [show (15 : Nat) = 14 + 1 from rfl, limiterRun_empty]
  simp only
  rw [show freshBucket 0 = ⟨maxTokens, 0, burstCapacity, 0⟩ from rfl,
      bucketRun_calm 0 (14 + 1) maxTokens burstCapacity le_rfl]
  norm_num [pureRun, pureStep, max_def, maxTokens, burstCapacity, List.takeWhile]

/-- C9 counterexample: after 7 admissions at `t = 0` the steady pool holds
3 tokens.  One more steady token is available 6000 ms later
(`3 + 6000 · refillRate = 4`, and not yet at 5999 ms), but `getStatus`
reports `resetIn = 42000` — the time until the pool is completely full —
contradicting the claim that `resetIn` estimates the time until one more
steady token. -/
theorem C9_counterexample :
    getStatusB (bucketRun (freshBucket 0) 0 7).2 0 = (3, 0, 42000) ∧
    steadyTokensAfter 3 6000 = 4 ∧
    steadyTokensAfter 3 5999 < 4 ∧
    (42000 : ℤ) ≠ 6000 := by
  refine ⟨?_, ?_, ?_, by omega⟩
  · rw [show freshBucket 0 = ⟨maxTokens, 0, burstCapacity, 0⟩ from rfl,
        bucketRun_calm 0 7 maxTokens burstCapacity le_rfl]
    have h7 : pureRun (maxTokens, burstCapacity) 7 =
        ([true, true, true, true, true, true, true], 3, 0) := by
      norm_num [pureRun, pureStep, max_def, maxTokens, burstCapacity]
    rw [h7]
    unfold getStatusB refillTokens refillBurstTokens
    norm_num [maxTokens, refillRate, burstWindow]
  · norm_num [steadyTokensAfter, maxTokens, refillRate]
  · norm_num [steadyTokensAfter, maxTokens, refillRate]

/-- C2 amended: starting from a freshly created bucket, with all requests
arriving at one instant (no refill time elapses), exactly
`maxTokens = 10` consecutive `allowRequest` calls return `true` before the
first `false` — not `maxTokens + burstCapacity` — because every burst
admission also consumes a steady token. -/
theorem C2_amended (cid : String) (t : Nat) :
    (limiterRun [] cid t 15).1 = List.replicate 10 true ++ List.replicate 5 false := by
  rw [show (15 : Nat) = 14 + 1 from rfl, limiterRun_empty]
  simp only
  rw [show freshBucket t = ⟨maxTokens, t, burstCapacity, t⟩ from rfl,
      bucketRun_calm t (14 + 1) maxTokens burstCapacity le_rfl]
  norm_num [pureRun, pureStep, max_def, maxTokens, burstCapacity, List.replicate]

theorem refill_tokens_le (b : TokenBucket) (now : Nat) :
    (refillBurstTokens (refillTokens b now) now).tokens ≤ maxTokens := by
  unfold refillBurstTokens refillTokens
  split
  · exact min_le_left _ _
  · exact min_le_left _ _

/-- C9 amended: `getStatus` first performs the same steady and burst
refill steps as `allowRequest` (the same `refillTokens` and
`refillBurstTokens`), then reports `remaining = ⌊steady tokens⌋` and
`burstRemaining = burst tokens`; but `resetIn` is
`⌈(maxTokens − steady tokens) / refillRate⌉` — the estimated time until
the steady pool is completely full again (after `resetIn` ms the refilled
pool reaches `maxTokens`), not the time until a single further token. -/
theorem C9_amended (b : TokenBucket) (now : Nat) :
    getStatusB b now =
      (⌊(refillBurstTokens (refillTokens b now) now).tokens⌋,
       (refillBurstTokens (refillTokens b now) now).burstTokens,
       ⌈(maxTokens - (refillBurstTokens (refillTokens b now) now).tokens) / refillRate⌉) ∧
    steadyTokensAfter (refillBurstTokens (refillTokens b now) now).tokens
        (⌈(maxTokens - (refillBurstTokens (refillTokens b now) now).tokens) / refillRate⌉).toNat
      = maxTokens := by
  constructor
  · rfl
  · set q := (refillBurstTokens (refillTokens b now) now).tokens with hqdef
    have hle : q ≤ maxTokens := refill_tokens_le b now
    have hrate : (0 : ℚ) < refillRate := by norm_num [refillRate]
    set d : ℤ := ⌈(maxTokens - q) / refillRate⌉ with hddef
    have hd0 : 0 ≤ d := by
      rw [hddef]
      exact Int.ceil_nonneg (div_nonneg (by linarith) (le_of_lt hrate))
    have hcast : ((d.toNat : Nat) : ℚ) = ((d : ℤ) : ℚ) := by
      exact_mod_cast congrArg (fun z => ((z : ℤ) : ℚ)) (Int.toNat_of_nonneg hd0)
    have hge : (maxTokens - q) / refillRate ≤ ((d : ℤ) : ℚ) := by
      rw [hddef]; exact Int.le_ceil _
    have hfull : maxTokens ≤ q + ((d : ℤ) : ℚ) * refillRate := by
      have h2 : maxTokens - q ≤ ((d : ℤ) : ℚ) * refillRate :=
        (div_le_iff₀ hrate).mp hge
      linarith
    unfold steadyTokensAfter
    rw [hcast]
    exact min_eq_left hfull

/-- C5: the code deadlocks the very scenario of the claim.  With
`concurrencyLimit = 1`, caller 0 fetches key `a` (admitted), caller 1
fetches key `b` while the limit is saturated (queued — but `enqueue` also
marked `b` as processing).  When the fetch for `a` completes and frees the
slot, `processNext` skips `b` because it is in the processing set: the
queued task is never executed (`invocations "b" = 0`), caller 1 never
settles, and the slot stays free (`activeCount = 0`) while `b` sits queued
forever. -/
theorem C5_divergence :
    (run 1 [QEvent.enq 0 "a", QEvent.enq 1 "b",
            QEvent.complete "a" (Outcome.ok 5)]).activeCount = 0 ∧
    (run 1 [QEvent.enq 0 "a", QEvent.enq 1 "b",
            QEvent.complete "a" (Outcome.ok 5)]).settled 1 = none ∧
    (run 1 [QEvent.enq 0 "a", QEvent.enq 1 "b",
            QEvent.complete "a" (Outcome.ok 5)]).invocations "b" = 0 ∧
    (run 1 [QEvent.enq 0 "a", QEvent.enq 1 "b",
            QEvent.complete "a" (Outcome.ok 5)]).queue = [("b", [1])] ∧
    (run 1 [QEvent.enq 0 "a", QEvent.enq 1 "b",
            QEvent.complete "a" (Outcome.ok 5)]).processing = ["b"] := by
  decide

/-- C6: over every sequence of enqueue and fetch-completion events, with
concurrency limit `L`, the number of physically executing fetches (the
suspended running tasks) equals `activeCount` and never exceeds `L`. -/
theorem C6_concurrency_bound (L : Nat) (evs : List QEvent) :
    (run L evs).activeCount ≤ L ∧
    (run L evs).activeCount = (run L evs).running.length := by
  suffices h : ∀ (l : List QEvent) (s : QueueState),
      s.activeCount = s.running.length → s.activeCount ≤ L →
      (runFrom L s l).activeCount = (runFrom L s l).running.length ∧
      (runFrom L s l).activeCount ≤ L by
    have h0 := h evs initState rfl (Nat.zero_le L)
    exact ⟨h0.2, h0.1⟩
  intro l
  induction l with
  | nil => intro s h1 h2; exact ⟨h1, h2⟩
  | cons ev tl ih =>
    intro s h1 h2
    have hstep := queueInv_step L s ev h1 h2
    exact ih (step L s ev) hstep.1 hstep.2

/-- C1: if `N ≥ 1` callers concurrently enqueue a fetch for the same key
on a fresh queue whose concurrency limit is not saturated (`L ≥ 1`), the
task is physically invoked exactly once, and when it settles with outcome
`r` (a value or an error) the promise of every one of the `N` callers settles
with that identical outcome. -/
theorem C1_single_flight (k : String) (N L : Nat) (r : Outcome)
    (hN : 1 ≤ N) (hL : 1 ≤ L) :
    ((run L ((List.range N).map (fun i => QEvent.enq i k) ++
        [QEvent.complete k r])).invocations k = 1) ∧
    (∀ i, i < N →
      (run L ((List.range N).map (fun i => QEvent.enq i k) ++
          [QEvent.complete k r])).settled i = some r) := by
  have hrun : run L ((List.range N).map (fun i => QEvent.enq i k) ++
      [QEvent.complete k r]) = completeTask L (enqChainState k N) k r := by
    unfold run runFrom
    rw [List.foldl_append, List.foldl_map, enq_chain L hL k N hN]
    rfl
  rw [hrun]
  unfold completeTask
  have hfind : (enqChainState k N).running.find? (fun p => p.1 == k) =
      some (k, 0) := by
    simp [enqChainState, List.find?]
  rw [hfind]
  dsimp only
  by_cases hN1 : N ≤ 1
  · have hNe : N = 1 := by omega
    subst hNe
    have hL0 : ¬ (L ≤ 0) := by omega
    constructor
    · simp [enqChainState, processNext, findEligible, procDelete, jsGet,
            jsDelete, bumpInv, settleMany, settleOne, hL0]
    · intro i hi
      have hi0 : i = 0 := by omega
      subst hi0
      simp [enqChainState, processNext, findEligible, procDelete, jsGet,
            jsDelete, bumpInv, settleMany, settleOne, hL0]
  · have h2 : 2 ≤ N := by omega
    have hL0 : ¬ (L ≤ 0) := by omega
    have hqe : (enqChainState k N).queue = [(k, List.range' 1 (N - 1))] := by
      simp [enqChainState]
      omega
    have hne : (List.range' 1 (N - 1)).isEmpty = false := by
      rw [List.isEmpty_eq_false_iff_exists_mem]
      exact ⟨1, by rw [List.mem_range'_1]; omega⟩
    constructor
    · simp [enqChainState, hN1, hne, processNext, findEligible, procDelete,
            jsGet, jsDelete, bumpInv, hL0, List.find?]
    · intro i hi
      rw [hqe]
      have hset : (enqChainState k N).settled = fun _ => none := rfl
      have hproc : (enqChainState k N).processing = [k] := rfl
      have hact : (enqChainState k N).activeCount = 1 := rfl
      rw [hset, hproc, hact, jsGet_singleton]
      simp only [Option.getD_some, hne, Bool.false_eq_true, if_false]
      have hdel : jsDelete k [(k, List.range' 1 (N - 1))] = [] := by
        simp [jsDelete]
      rw [hdel]
      simp only [processNext, findEligible, procDelete]
      have hL1 : ¬ (L ≤ 1 - 1) := by omega
      rw [if_neg hL1]
      dsimp only
      rw [settleMany_apply]
      by_cases hi0 : i = 0
      · subst hi0
        have h0 : (0 : Nat) ∉ List.range' 1 (N - 1) := by
          rw [List.mem_range'_1]
          omega
        simp [h0, settleOne]
      · have hmem : i ∈ List.range' 1 (N - 1) := by
          rw [List.mem_range'_1]
          omega
        simp [hmem]

/-- C1 witness: three concurrent callers for key `"k"`, limit 10; the task
runs once and every caller receives `ok 7`. -/
theorem C1_witness :
    ((run 10 ((List.range 3).map (fun i => QEvent.enq i "k") ++
        [QEvent.complete "k" (Outcome.ok 7)])).invocations "k" = 1) ∧
    ((run 10 ((List.range 3).map (fun i => QEvent.enq i "k") ++
        [QEvent.complete "k" (Outcome.ok 7)])).settled 2 = some (Outcome.ok 7)) :=
  ⟨(C1_single_flight "k" 3 10 (Outcome.ok 7) (by omega) (by omega)).1,
   (C1_single_flight "k" 3 10 (Outcome.ok 7) (by omega) (by omega)).2 2 (by omega)⟩

/-- C10: `clear()` empties the waiter queue without settling anything and
leaves `processing`, `activeCount`, the running tasks and the invocation
counters untouched; a caller `c` that was only a queued waiter (not
settled, not the initiator of a running task) never settles afterwards,
whatever events follow, as long as `c` itself never re-enqueues. -/
theorem C10_clear_frame (L : Nat) (s : QueueState) (c : Nat)
    (evs : List QEvent)
    (hset : s.settled c = none)
    (hrun : ∀ p ∈ s.running, p.2 ≠ c)
    (hev : ∀ k, QEvent.enq c k ∉ evs) :
    (clearQ s).queue = [] ∧
    (clearQ s).processing = s.processing ∧
    (clearQ s).activeCount = s.activeCount ∧
    (clearQ s).running = s.running ∧
    (clearQ s).invocations = s.invocations ∧
    (clearQ s).settled = s.settled ∧
    (runFrom L (clearQ s) evs).settled c = none := by
  refine ⟨rfl, rfl, rfl, rfl, rfl, rfl, ?_⟩
  have h0 : untouched c (clearQ s) := by
    refine ⟨hset, hrun, ?_⟩
    intro p hp
    exact absurd hp (List.not_mem_nil p)
  exact (untouched_runFrom L c evs (clearQ s) h0 hev).1

/-- C10 witness: caller 1 queued as a waiter for key `"a"` behind caller
0 is running the fetch; after `clear()` the completion of `"a"` does not settle
caller 1. -/
theorem C10_witness :
    (runFrom 1 (clearQ (run 1 [QEvent.enq 0 "a", QEvent.enq 1 "a"]))
       [QEvent.complete "a" (Outcome.ok 2)]).settled 1 = none :=
  (C10_clear_frame 1 (run 1 [QEvent.enq 0 "a", QEvent.enq 1 "a"]) 1
      [QEvent.complete "a" (Outcome.ok 2)]
      (by decide)
      (by decide)
      (by
        intro k hk
        simp only [List.mem_singleton] at hk
        exact QEvent.noConfusion hk)).2.2.2.2.2.2

/-- C3 amended: a key set at `t0` with TTL `T` (on a store with unique
keys) is returned by `get` and reported by `has` at every observation time
`t ≤ t0 + T` and is absent at every `t > t0 + T` — the boundary instant
`t = t0 + T` is still a hit, because the source expires strictly:
`now - timestamp > ttl`.  This holds whether or not the background sweep
ran at any intermediate time `s`. -/
theorem C3_amended {V : Type} (c : LRUCache V) (k : String) (v : V)
    (t0 s t : Nat) (hnd : (c.entries.map Prod.fst).Nodup)
    (h1 : t0 ≤ s) (h2 : s ≤ t) :
    ((LRUCache.get (LRUCache.cleanupStaleEntries (LRUCache.set c k v t0) s) k t).1 =
      if t - t0 ≤ c.ttl then some v else none) ∧
    ((LRUCache.has (LRUCache.cleanupStaleEntries (LRUCache.set c k v t0) s) k t).1 =
      decide (t - t0 ≤ c.ttl)) := by
  obtain ⟨pre, hsplit, hpre⟩ := set_entries_split c k v t0 hnd
  have httl1 : (LRUCache.set c k v t0).ttl = c.ttl := set_ttl c k v t0
  have httl2 : (LRUCache.cleanupStaleEntries (LRUCache.set c k v t0) s).ttl = c.ttl :=
    httl1
  have hent2 : (LRUCache.cleanupStaleEntries (LRUCache.set c k v t0) s).entries =
      pre.filter (fun p => !((LRUCache.set c k v t0).ttl < s - p.2.timestamp)) ++
        (if c.ttl < s - t0 then [] else [(k, ⟨v, t0, t0⟩)]) := by
    show ((LRUCache.set c k v t0).entries.filter _) = _
    rw [hsplit, List.filter_append]
    congr 1
    rw [httl1]
    by_cases hx : c.ttl < s - t0
    · simp [hx]
    · simp [hx]
  have hpre2 : ∀ p ∈ pre.filter
      (fun p => !((LRUCache.set c k v t0).ttl < s - p.2.timestamp)), p.1 ≠ k :=
    fun p hp => hpre p (List.mem_of_mem_filter hp)
  by_cases hexp : c.ttl < t - t0
  · have hifn : (if t - t0 ≤ c.ttl then some v else (none : Option V)) = none :=
      if_neg (by omega)
    have hdec : decide (t - t0 ≤ c.ttl) = false := by
      simp only [decide_eq_false_iff_not]
      omega
    rw [hifn, hdec]
    by_cases hswept : c.ttl < s - t0
    · have hg : jsGet k
          (LRUCache.cleanupStaleEntries (LRUCache.set c k v t0) s).entries = none := by
        rw [hent2, if_pos hswept, List.append_nil]
        exact jsGet_none k _ hpre2
      constructor
      · unfold LRUCache.get
        rw [hg]
      · unfold LRUCache.has
        rw [hg]
    · have hg : jsGet k
          (LRUCache.cleanupStaleEntries (LRUCache.set c k v t0) s).entries =
          some ⟨v, t0, t0⟩ := by
        rw [hent2, if_neg hswept]
        exact jsGet_append_key k _ _ hpre2
      have hexpb : (LRUCache.cleanupStaleEntries
          (LRUCache.set c k v t0) s).isExpired ⟨v, t0, t0⟩ t = true := by
        unfold LRUCache.isExpired
        dsimp only
        rw [httl2]
        exact decide_eq_true hexp
      constructor
      · unfold LRUCache.get
        rw [hg]
        dsimp only
        rw [if_pos hexpb]
      · unfold LRUCache.has
        rw [hg]
        dsimp only
        rw [if_pos hexpb]
  · have hkept : ¬ (c.ttl < s - t0) := by omega
    have hg : jsGet k
        (LRUCache.cleanupStaleEntries (LRUCache.set c k v t0) s).entries =
        some ⟨v, t0, t0⟩ := by
      rw [hent2, if_neg hkept]
      exact jsGet_append_key k _ _ hpre2
    have hexpb : (LRUCache.cleanupStaleEntries
        (LRUCache.set c k v t0) s).isExpired ⟨v, t0, t0⟩ t = false := by
      unfold LRUCache.isExpired
      dsimp only
      rw [httl2]
      simp only [decide_eq_false_iff_not]
      omega
    have hifp : (if t - t0 ≤ c.ttl then some v else (none : Option V)) = some v :=
      if_pos (by omega)
    have hdec : decide (t - t0 ≤ c.ttl) = true := decide_eq_true (by omega)
    rw [hifp, hdec]
    constructor
    · unfold LRUCache.get
      rw [hg]
      dsimp only
      simp only [hexpb, Bool.false_eq_true, if_false]
    · unfold LRUCache.has
      rw [hg]
      dsimp only
      simp only [hexpb, Bool.false_eq_true, if_false]

/-- C3 witness: TTL 2000 ms, set at 0, swept at 500, observed at 1500:
still present for both `get` and `has`. -/
theorem C3_witness :
    (LRUCache.get (LRUCache.cleanupStaleEntries
        (LRUCache.set (LRUCache.mkCache Nat 2 2) "a" 7 0) 500) "a" 1500).1 = some 7 ∧
    (LRUCache.has (LRUCache.cleanupStaleEntries
        (LRUCache.set (LRUCache.mkCache Nat 2 2) "a" 7 0) 500) "a" 1500).1 = true := by
  have h := C3_amended (LRUCache.mkCache Nat 2 2) "a" 7 0 500 1500
    (by decide) (by omega) (by omega)
  constructor
  · rw [h.1, if_pos (by decide)]
  · rw [h.2]
    decide

/-- C4 amended: over every sequence of `get`/`set` operations whose `set`
keys are non-empty, on a cache of capacity ≥ 1, the size never exceeds the
capacity after any operation; and a `set` of a fresh non-empty key on a
full cache removes exactly the least-recently-used entry (the head of the
recency order), appends the new entry as most-recently-used, increments
the evictions counter and keeps the size at capacity.  (The restriction to
non-empty keys is forced by the `if (firstKey)` truthiness check in the
source, which skips eviction when the LRU key is `""`.) -/
theorem C4_amended {V : Type} (cap ttlS : Nat) (hcap1 : 1 ≤ cap)
    (ops : List (CacheOp V)) (hops : ∀ op ∈ ops, opSetKeyOk op = true) :
    (runOps V cap ttlS ops).entries.length ≤ cap ∧
    ∀ (k : String) (v : V) (now : Nat), k ≠ "" →
      k ∉ (runOps V cap ttlS ops).entries.map Prod.fst →
      cap ≤ (runOps V cap ttlS ops).entries.length →
      (LRUCache.set (runOps V cap ttlS ops) k v now).entries =
        (runOps V cap ttlS ops).entries.tail ++ [(k, ⟨v, now, now⟩)] ∧
      (LRUCache.set (runOps V cap ttlS ops) k v now).evictions =
        (runOps V cap ttlS ops).evictions + 1 ∧
      (LRUCache.set (runOps V cap ttlS ops) k v now).entries.length = cap := by
  have hinv := cacheInv_runOps cap ttlS hcap1 ops hops
  exact ⟨hinv.2.1, fun k v now hkne habs hfull =>
    set_full_evicts cap (runOps V cap ttlS ops) k v now hinv hcap1 hkne habs hfull⟩

/-- C4 witness: capacity 1, one insert; a second insert with a fresh key
evicts the head entry and counts one eviction. -/
theorem C4_witness :
    (LRUCache.set (runOps Nat 1 1 [CacheOp.set "a" 1 0]) "b" 2 5).entries =
      (runOps Nat 1 1 [CacheOp.set "a" 1 0]).entries.tail ++
        [("b", ⟨2, 5, 5⟩)] ∧
    (LRUCache.set (runOps Nat 1 1 [CacheOp.set "a" 1 0]) "b" 2 5).evictions =
      (runOps Nat 1 1 [CacheOp.set "a" 1 0]).evictions + 1 ∧
    (LRUCache.set (runOps Nat 1 1 [CacheOp.set "a" 1 0]) "b" 2 5).entries.length = 1 :=
  (C4_amended 1 1 (by omega) [CacheOp.set "a" 1 0] (by decide)).2 "b" 2 5
    (by decide) (by decide) (by decide)

end Spec2Proof
